import Mathlib

/-!
Verification of the TechLag technical-lag computation engine.

The development embeds the core of the repository:
  - `TechLag.convert_version`  (techlag.py, `convert_version`)
  - `TechLag.release_type`     (techlag.py, `release_type`)
  - `TechLag.semver`           (techlag.py, `semver`, with the external
    range-evaluator process abstracted as an input outcome)
  - `TechLag.computeLagSt` / `TechLag.compute_lag` (backends/npm.py,
    `compute_lag`, with the pandas frame embedded as a list of rows and the
    in-place column mutation made explicit in the returned frame)
  - `TechLag.processDependency` (backends/npm.py, the per-row body of
    `calculate_lags`)

Python strings are modelled as `String`; `str.split(sep)` is embedded by the
structural `TechLag.splitOnChar` over the character list, `int(...)` on digit
strings by `TechLag.digitsToNat`, raised exceptions by `Option`/`Except`.
-/

namespace TechLag

/-- Python `s.split(c)` on a list of characters: chunks between occurrences
of `c`, never empty as a list (splitting the empty string gives `[[]]`). -/
def splitOnChar (c : Char) : List Char → List (List Char)
  | [] => [[]]
  | x :: xs =>
    if x = c then [] :: splitOnChar c xs
    else
      match splitOnChar c xs with
      | [] => [[x]]
      | y :: ys => (x :: y) :: ys

/-- Python `int(p)` for a non-empty all-digit string `p`. -/
def digitsToNat (p : List Char) : Nat :=
  p.foldl (fun n c => 10 * n + (c.toNat - 48)) 0

/-- Python `version.split('-')[0]`: the part before the first hyphen. -/
def stripPre (s : String) : String :=
  ⟨(splitOnChar '-' s.toList).headD s.toList⟩

/-- The regex `^\d+(\.\d+)*$` of `convert_version`: every dot-separated chunk
is non-empty and all digits. -/
def isVersionShape (s : String) : Bool :=
  (splitOnChar '.' s.toList).all (fun p => !p.isEmpty && p.all Char.isDigit)

/-- `TechLag.convert_version` (techlag.py): check the version against
`^\d+(\.\d+)*$` (raising, i.e. `none`, on failure), split on dots and weigh
the first three components by 1000000 / 1000 / 1. -/
def convert_version (version : String) : Option Nat :=
  if isVersionShape version then
    let groups := splitOnChar '.' version.toList
    let major := 1000000 * digitsToNat (groups.headD [])
    let minor := 1000 * (match groups[1]? with | some g => digitsToNat g | none => 0)
    let patch := (match groups[2]? with | some g => digitsToNat g | none => 0)
    some (major + minor + patch)
  else none

/-- The three release-type labels (`RELEASE_MAJOR/MINOR/PATCH`). -/
inductive Release where
  | major
  | minor
  | patch
deriving DecidableEq, Repr

/-- `TechLag.release_type` (techlag.py): split both versions on dots; if the
first components differ the release is major, else if the second components
differ it is minor, else patch.  Accessing a missing second component is a
Python `IndexError`, embedded as `none`. -/
def release_type (old_version new_version : String) : Option Release :=
  let o := splitOnChar '.' old_version.toList
  let n := splitOnChar '.' new_version.toList
  if n.headD [] ≠ o.headD [] then some .major
  else
    match n[1]?, o[1]? with
    | some a, some b => if a ≠ b then some .minor else some .patch
    | _, _ => none

/-- One row of the pandas version frame built by `Npm.get_versions`:
columns `version`, `date`, `package`. -/
structure Row where
  version : String
  date : String
  package : String
deriving DecidableEq, Repr

/-- The lag dictionary returned by `Npm.compute_lag` after the padding at the
end of the function: it always carries the three keys `major`, `minor`,
`patch`. -/
structure Lag where
  major : Nat
  minor : Nat
  patch : Nat
deriving DecidableEq, Repr

/-- `versions['version'] = versions['version'].apply(lambda x: x.split('-')[0])`
applied to one row. -/
def stripRow (r : Row) : Row :=
  { r with version := stripPre r.version }

/-- `DataFrame.drop_duplicates` keeps the first occurrence of each full row;
`seen` accumulates the rows already emitted. -/
def dedupAux (seen : List Row) : List Row → List Row
  | [] => []
  | r :: rs => if r ∈ seen then dedupAux seen rs else r :: dedupAux (r :: seen) rs

/-- `versions.drop_duplicates()` on the whole frame. -/
def dedupRows (l : List Row) : List Row :=
  dedupAux [] l

/-- `versions['version_count'] = versions['version'].apply(convert_version)`:
pair each row with its numeric version, failing if any conversion fails. -/
def withCountsOf : List Row → Option (List (Row × Nat))
  | [] => some []
  | r :: rs =>
    match convert_version r.version, withCountsOf rs with
    | some c, some tl => some ((r, c) :: tl)
    | _, _ => none

/-- Row order used by `sort_values('version_count', ascending=True)`. -/
def cntLE (a b : Row × Nat) : Prop := a.2 ≤ b.2

instance : DecidableRel cntLE := fun a b => Nat.decLe a.2 b.2

instance : IsTotal (Row × Nat) cntLE := ⟨fun a b => Nat.le_total a.2 b.2⟩

instance : IsTrans (Row × Nat) cntLE := ⟨fun _ _ _ h h2 => Nat.le_trans h h2⟩

/-- The stripped, deduplicated history with numeric versions, sorted
ascending by `version_count` (steps 2–4 of `compute_lag` up to the sort). -/
def histSorted (versions : List Row) : Option (List (Row × Nat)) :=
  (withCountsOf (dedupRows (versions.map stripRow))).map (List.insertionSort cntLE)

/-- `versions['version_old'] = versions['version'].shift(1)` followed by the
row-wise `release_type` apply: label every row against its predecessor.  The
first row's predecessor is the shifted-in `NaN`, whose `str()` is `"nan"`.
Any `IndexError` inside `release_type` aborts the whole apply (`none`). -/
def labelSteps (prev : String) : List (Row × Nat) → Option (List (Nat × Release))
  | [] => some []
  | x :: rest =>
    match release_type prev x.1.version, labelSteps x.1.version rest with
    | some t, some tl => some ((x.2, t) :: tl)
    | _, _ => none

/-- The `query('version_count>used and version_count <= latest')` step:
keep the labelled releases whose ordinal lies in the window `(u, l]`. -/
def windowOf (u l : Nat) (steps : List (Nat × Release)) : List (Nat × Release) :=
  steps.filter (fun s => decide (u < s.1) && decide (s.1 ≤ l))

/-- The `groupby('release_type').count()` step for one label. -/
def countType (w : List (Nat × Release)) (t : Release) : Nat :=
  w.countP (fun s => decide (s.2 = t))

/-- `Npm.compute_lag` (backends/npm.py), with the caller-visible final state
of the `versions` frame returned alongside the result.  The first component
reflects the in-place mutation of the `version` column: it happens after the
fast path, before the deduplicated copy is taken, and it persists even when a
later step raises. -/
def computeLagSt (versions : List Row) (used latest : String) :
    List Row × Option Lag :=
  match convert_version (stripPre used), convert_version (stripPre latest) with
  | some u, some l =>
    if u = l then (versions, some ⟨0, 0, 0⟩)
    else
      (versions.map stripRow,
        match histSorted versions with
        | none => none
        | some sorted =>
          match labelSteps "nan" sorted with
          | none => none
          | some steps =>
            some ⟨countType (windowOf u l steps) Release.major,
                  countType (windowOf u l steps) Release.minor,
                  countType (windowOf u l steps) Release.patch⟩)
  | _, _ => (versions, none)

/-- The value computed by `Npm.compute_lag` (the raised exception is `none`). -/
def compute_lag (versions : List Row) (used latest : String) : Option Lag :=
  (computeLagSt versions used latest).2

/-- Python `s.strip()`: whitespace removed from both ends. -/
def pyStrip (s : String) : String :=
  ⟨((s.toList.dropWhile Char.isWhitespace).reverse.dropWhile Char.isWhitespace).reverse⟩

/-- Python `s.split('\n')`. -/
def pySplitLines (s : String) : List String :=
  (splitOnChar (Char.ofNat 10) s.toList).map (fun cs => ⟨cs⟩)

/-- What `subprocess.run` of the external `semver` range evaluator produced:
either the `TypeError` raised on non-string arguments, or a completed process
with an exit status and decoded stdout. -/
inductive RunOutcome where
  | typeError
  | completed (returncode : Int) (stdout : String)

/-- `TechLag.semver` (techlag.py) over the evaluator outcome: a `TypeError`
is re-raised as `TechLagError`; exit status 0 returns the stripped output
split on newlines; exit status 1 with empty stripped output returns `[]`
(the logged no-match case); anything else raises `TechLagError`. -/
def semver : RunOutcome → Except Unit (List String)
  | .typeError => .error ()
  | .completed rc out =>
    let output := pyStrip out
    if rc = 0 then .ok (pySplitLines output)
    else if rc = 1 ∧ output = "" then .ok []
    else .error ()

/-- One output row of `Npm.calculate_lags`: the columns written for a
dependency (`used_version`, `latest_version` and the three lag columns). -/
structure DepResult where
  used_version : String
  latest_version : String
  lag : Lag
deriving DecidableEq, Repr

/-- The per-dependency body of `Npm.calculate_lags` (backends/npm.py): take
the last element of the `semver('*', ...)` matches as `latest`, the last
element of the constraint matches as `used` (Python `[-1]`, an `IndexError`
on an empty list, is `getLast?`), then `compute_lag`. -/
def processDependency (history : List Row) (latestMatches usedMatches : List String) :
    Option DepResult :=
  match latestMatches.getLast? with
  | none => none
  | some latest =>
    match usedMatches.getLast? with
    | none => none
    | some used => (compute_lag history used latest).map (fun lag => ⟨used, latest, lag⟩)

/-- A version string with at least a major and a minor component, all parts
numeric: the inputs on which `release_type` is total against any same-shaped
partner. -/
def validMM (s : String) : Bool :=
  isVersionShape s && decide (2 ≤ (splitOnChar '.' s.toList).length)

/-- The consecutive (predecessor, current) pairs walked by the shifted
`release_type` apply, starting from the shifted-in predecessor `prev`. -/
def pairsFrom (prev : String) : List (Row × Nat) → List (String × (Row × Nat))
  | [] => []
  | x :: rest => (prev, x) :: pairsFrom x.1.version rest

/-- Stated from the claim: among the releases of the ordinal-sorted
deduplicated history `s`, count those whose ordinal lies strictly above `u`
and at most `l` and whose step from their immediate predecessor in `s` is
classified `t` by `release_type`. -/
def lagSpecCount (u l : Nat) (s : List (Row × Nat)) (t : Release) : Nat :=
  (s.zip s.tail).countP
    (fun q => decide (u < q.2.2) && decide (q.2.2 ≤ l) &&
      decide (release_type q.1.1.version q.2.1.version = some t))

/-! ### Basic lemmas about the embedded string operations -/

theorem splitOnChar_ne_nil (c : Char) (l : List Char) : splitOnChar c l ≠ [] := by
  cases l with
  | nil => simp [splitOnChar]
  | cons x xs =>
    simp only [splitOnChar]
    split
    · simp
    · split <;> simp

theorem pySplitLines_ne_nil (s : String) : pySplitLines s ≠ [] := by
  unfold pySplitLines
  intro h
  cases h0 : splitOnChar (Char.ofNat 10) s.toList with
  | nil => exact splitOnChar_ne_nil _ _ h0
  | cons y ys => rw [h0] at h; cases h

theorem chunk_ok {a : List Char} (h1 : a ≠ []) (h2 : a.all Char.isDigit = true) :
    (!a.isEmpty && a.all Char.isDigit) = true := by
  cases a with
  | nil => exact absurd rfl h1
  | cons x xs => simp [h2]

theorem no_dot_of_digits {a : List Char} (h : a.all Char.isDigit = true) : '.' ∉ a :=
  fun hm => absurd (List.all_eq_true.mp h _ hm) (by decide)

theorem splitOnChar_of_not_mem {c : Char} {a : List Char} (h : c ∉ a) :
    splitOnChar c a = [a] := by
  induction a with
  | nil => rfl
  | cons x xs ih =>
    have hx : ¬(x = c) := fun he => h (List.mem_cons.mpr (Or.inl he.symm))
    simp only [splitOnChar]
    rw [if_neg hx, ih (fun hc => h (List.mem_cons.mpr (Or.inr hc)))]

theorem splitOnChar_append {c : Char} {a : List Char} (rest : List Char) (h : c ∉ a) :
    splitOnChar c (a ++ c :: rest) = a :: splitOnChar c rest := by
  induction a with
  | nil => simp [splitOnChar]
  | cons x xs ih =>
    have hx : ¬(x = c) := fun he => h (List.mem_cons.mpr (Or.inl he.symm))
    simp only [List.cons_append, splitOnChar, List.append_eq]
    rw [if_neg hx, ih (fun hc => h (List.mem_cons.mpr (Or.inr hc)))]

theorem mem_chunk_of_mem {c x : Char} (hxc : x ≠ c) :
    ∀ {l : List Char}, x ∈ l → ∃ p ∈ splitOnChar c l, x ∈ p := by
  intro l
  induction l with
  | nil => intro h; cases h
  | cons y ys ih =>
    intro h
    simp only [splitOnChar]
    by_cases hy : y = c
    · rw [if_pos hy]
      have hx : x ∈ ys := by
        rcases List.mem_cons.mp h with h1 | h1
        · exact absurd (h1.trans hy) hxc
        · exact h1
      obtain ⟨p, hp, hxp⟩ := ih hx
      exact ⟨p, List.mem_cons_of_mem _ hp, hxp⟩
    · rw [if_neg hy]
      rcases List.mem_cons.mp h with h1 | h1
      · cases hs : splitOnChar c ys with
        | nil => exact ⟨[y], by simp, by rw [h1]; exact List.mem_cons_self y []⟩
        | cons z zs => exact ⟨y :: z, by simp, by rw [h1]; exact List.mem_cons_self y z⟩
      · obtain ⟨p, hp, hxp⟩ := ih h1
        cases hs : splitOnChar c ys with
        | nil => rw [hs] at hp; cases hp
        | cons z zs =>
          rw [hs] at hp
          rcases List.mem_cons.mp hp with h2 | h2
          · exact ⟨y :: z, List.mem_cons_self _ _,
              List.mem_cons_of_mem _ (h2 ▸ hxp)⟩
          · exact ⟨p, List.mem_cons_of_mem _ h2, hxp⟩

theorem shape_false_of_dash {s : String} (h : '-' ∈ s.toList) :
    isVersionShape s = false := by
  unfold isVersionShape
  obtain ⟨p, hp, hxp⟩ := @mem_chunk_of_mem '.' '-' (by decide) s.toList h
  apply List.all_eq_false.mpr
  refine ⟨p, hp, ?_⟩
  have hdig : p.all Char.isDigit = false :=
    List.all_eq_false.mpr ⟨_, hxp, by decide⟩
  simp [hdig]

theorem convert_version_eq_of_split {s : String} {groups : List (List Char)}
    (h : splitOnChar '.' s.toList = groups)
    (hall : (groups.all fun p => !p.isEmpty && p.all Char.isDigit) = true) :
    convert_version s =
      some (1000000 * digitsToNat (groups.headD []) +
        1000 * (match groups[1]? with | some g => digitsToNat g | none => 0) +
        (match groups[2]? with | some g => digitsToNat g | none => 0)) := by
  unfold convert_version isVersionShape
  rw [h, if_pos hall]

/-! ### C3: convert_version -/

/-- C3 counterexample: `convert_version` does not strip a pre-release suffix
itself (the claim predicts `1000000` for `"1.0.0-beta"`, the code raises),
and it accepts more than three dot-separated components (the claim predicts
an error for `"1.2.3.4"`, the code returns `1002003`). -/
theorem c3_convert_version_cex :
    convert_version "1.0.0-beta" = none ∧ convert_version "1.2.3.4" = some 1002003 := by
  constructor
  · decide
  · decide

/-- C3 (amended): `convert_version(s)` demands that `s` itself (no hyphen
stripping is performed; any string containing a hyphen is rejected) consist
of one or more dot-separated non-negative integers; it returns
major*1000000 + minor*1000 + patch with absent minor/patch defaulting to 0
and all components beyond the third ignored, and raises exactly on strings
not of that shape, in particular on the empty string. -/
theorem c3_convert_version_components :
    (∀ a : List Char, a ≠ [] → a.all Char.isDigit = true →
      convert_version ⟨a⟩ = some (1000000 * digitsToNat a)) ∧
    (∀ a b : List Char, a ≠ [] → a.all Char.isDigit = true →
      b ≠ [] → b.all Char.isDigit = true →
      convert_version ⟨a ++ '.' :: b⟩ =
        some (1000000 * digitsToNat a + 1000 * digitsToNat b)) ∧
    (∀ a b c : List Char, a ≠ [] → a.all Char.isDigit = true →
      b ≠ [] → b.all Char.isDigit = true → c ≠ [] → c.all Char.isDigit = true →
      convert_version ⟨a ++ '.' :: (b ++ '.' :: c)⟩ =
        some (1000000 * digitsToNat a + 1000 * digitsToNat b + digitsToNat c)) ∧
    (∀ a b c d : List Char, a ≠ [] → a.all Char.isDigit = true →
      b ≠ [] → b.all Char.isDigit = true → c ≠ [] → c.all Char.isDigit = true →
      d ≠ [] → d.all Char.isDigit = true →
      convert_version ⟨a ++ '.' :: (b ++ '.' :: (c ++ '.' :: d))⟩ =
        some (1000000 * digitsToNat a + 1000 * digitsToNat b + digitsToNat c)) ∧
    (∀ s : String, (convert_version s).isSome = isVersionShape s) ∧
    (∀ s : String, '-' ∈ s.toList → convert_version s = none) ∧
    convert_version "" = none := by
  refine ⟨?_, ?_, ?_, ?_, ?_, ?_, by decide⟩
  · intro a ha1 ha2
    have hsplit : splitOnChar '.' (String.toList ⟨a⟩) = [a] :=
      splitOnChar_of_not_mem (no_dot_of_digits ha2)
    exact convert_version_eq_of_split hsplit
      (by simp only [List.all_cons, List.all_nil, chunk_ok ha1 ha2, Bool.and_self])
  · intro a b ha1 ha2 hb1 hb2
    have hsplit : splitOnChar '.' (String.toList ⟨a ++ '.' :: b⟩) = [a, b] := by
      show splitOnChar '.' (a ++ '.' :: b) = [a, b]
      rw [splitOnChar_append _ (no_dot_of_digits ha2),
        splitOnChar_of_not_mem (no_dot_of_digits hb2)]
    exact convert_version_eq_of_split hsplit
      (by simp only [List.all_cons, List.all_nil, chunk_ok ha1 ha2, chunk_ok hb1 hb2,
        Bool.and_self])
  · intro a b c ha1 ha2 hb1 hb2 hc1 hc2
    have hsplit : splitOnChar '.' (String.toList ⟨a ++ '.' :: (b ++ '.' :: c)⟩) = [a, b, c] := by
      show splitOnChar '.' (a ++ '.' :: (b ++ '.' :: c)) = [a, b, c]
      rw [splitOnChar_append _ (no_dot_of_digits ha2),
        splitOnChar_append _ (no_dot_of_digits hb2),
        splitOnChar_of_not_mem (no_dot_of_digits hc2)]
    exact convert_version_eq_of_split hsplit
      (by simp only [List.all_cons, List.all_nil, chunk_ok ha1 ha2, chunk_ok hb1 hb2,
        chunk_ok hc1 hc2, Bool.and_self])
  · intro a b c d ha1 ha2 hb1 hb2 hc1 hc2 hd1 hd2
    have hsplit : splitOnChar '.'
        (String.toList ⟨a ++ '.' :: (b ++ '.' :: (c ++ '.' :: d))⟩) = [a, b, c, d] := by
      show splitOnChar '.' (a ++ '.' :: (b ++ '.' :: (c ++ '.' :: d))) = [a, b, c, d]
      rw [splitOnChar_append _ (no_dot_of_digits ha2),
        splitOnChar_append _ (no_dot_of_digits hb2),
        splitOnChar_append _ (no_dot_of_digits hc2),
        splitOnChar_of_not_mem (no_dot_of_digits hd2)]
    exact convert_version_eq_of_split hsplit
      (by simp only [List.all_cons, List.all_nil, chunk_ok ha1 ha2, chunk_ok hb1 hb2,
        chunk_ok hc1 hc2, chunk_ok hd1 hd2, Bool.and_self])
  · intro s
    unfold convert_version
    split_ifs with h <;> simp [h]
  · intro s h
    unfold convert_version
    rw [shape_false_of_dash h]
    rfl

/-! ### C6: release_type classification -/

/-- C6 counterexample: the claim says a pair with no difference at all is
classified `patch`, but on the pair of one-component versions `("1", "1")`
the code raises an `IndexError` instead of returning anything. -/
theorem c6_release_type_cex :
    release_type "1" "1" = none ∧ ¬ release_type "1" "1" = some Release.patch := by
  constructor
  · decide
  · decide

/-- C6 (amended): `release_type` returns `major` exactly when the first
dot-separated components differ as strings; otherwise, provided both strings
carry a second component, it returns `minor` exactly when the second
components differ and `patch` otherwise (no difference at all is `patch`);
when the first components agree and a second component is missing the code
raises `IndexError` instead.  The claim's three examples hold. -/
theorem c6_release_type_classification (old_version new_version : String) :
    ((splitOnChar '.' new_version.toList).headD [] ≠
        (splitOnChar '.' old_version.toList).headD [] →
      release_type old_version new_version = some Release.major) ∧
    (∀ a b, (splitOnChar '.' new_version.toList).headD [] =
        (splitOnChar '.' old_version.toList).headD [] →
      (splitOnChar '.' new_version.toList)[1]? = some a →
      (splitOnChar '.' old_version.toList)[1]? = some b →
      release_type old_version new_version =
        some (if a ≠ b then Release.minor else Release.patch)) ∧
    release_type "1.1.0" "2.2.1" = some Release.major ∧
    release_type "1.1.0" "1.2.1" = some Release.minor ∧
    release_type "1.1.1" "1.1.2" = some Release.patch := by
  refine ⟨?_, ?_, by decide, by decide, by decide⟩
  · intro h
    simp only [release_type]
    rw [if_pos h]
  · intro a b hh ha hb
    simp only [release_type]
    rw [if_neg (fun hc => hc hh), ha, hb]
    by_cases hab : a = b
    · simp [hab]
    · simp [hab]

/-! ### C7: release_type totality -/

theorem isSome_ite {c : Prop} [Decidable c] {x y : Release} :
    (if c then some x else some y).isSome = true := by
  split <;> rfl

theorem release_type_total_of (old_version new_version : String)
    (h : (splitOnChar '.' new_version.toList).headD [] ≠
          (splitOnChar '.' old_version.toList).headD [] ∨
        (2 ≤ (splitOnChar '.' old_version.toList).length ∧
          2 ≤ (splitOnChar '.' new_version.toList).length)) :
    (release_type old_version new_version).isSome = true := by
  simp only [release_type]
  by_cases hh : (splitOnChar '.' new_version.toList).headD [] ≠
      (splitOnChar '.' old_version.toList).headD []
  · rw [if_pos hh]
    rfl
  · rw [if_neg hh]
    rcases h with h | ⟨h2o, h2n⟩
    · exact absurd h hh
    · rw [List.getElem?_eq_getElem (by omega), List.getElem?_eq_getElem (by omega)]
      exact isSome_ite

/-- C7 counterexample: `"2"` is accepted by `convert_version`, yet
`release_type("2", "2")` raises an `IndexError` (second component missing),
so `release_type` is not total on all upstream-accepted pairs. -/
theorem c7_release_type_total_cex :
    convert_version "2" = some 2000000 ∧ release_type "2" "2" = none := by
  constructor
  · decide
  · decide

/-- C7 (amended): `release_type` evaluates without failure on every pair of
upstream-accepted version strings whose first components differ or which
both carry at least two dot-separated components; with equal first
components and a missing second component it raises instead. -/
theorem c7_release_type_total (old_version new_version : String)
    (_ho : isVersionShape old_version = true)
    (_hn : isVersionShape new_version = true)
    (h : (splitOnChar '.' new_version.toList).headD [] ≠
          (splitOnChar '.' old_version.toList).headD [] ∨
        (2 ≤ (splitOnChar '.' old_version.toList).length ∧
          2 ≤ (splitOnChar '.' new_version.toList).length)) :
    (release_type old_version new_version).isSome = true :=
  release_type_total_of old_version new_version h

/-- Witness for C7 on the accepted pair `("1.0.0", "1.0.1")`. -/
theorem c7_release_type_total_witness :
    (release_type "1.0.0" "1.0.1").isSome = true :=
  c7_release_type_total "1.0.0" "1.0.1" (by decide) (by decide) (Or.inr (by decide))

/-! ### C9: empty constraint resolution crashes the dependency -/

/-- C9: when the declared constraint matches none of the fetched versions,
`calculate_lags` takes `semver(...)[-1]` of the empty match list, so the
processing of that dependency fails and no lag record is produced. -/
theorem c9_empty_used_resolution_fails (history : List Row) (latestMatches : List String) :
    processDependency history latestMatches [] = none := by
  unfold processDependency
  cases latestMatches.getLast? <;> rfl

/-! ### C8: semver distinguishes no-match from failure -/

/-- C8: `semver` returns the empty list exactly when the evaluator exits with
status 1 and empty (stripped) output, raises exactly when the run raised a
`TypeError` or exited with a status other than 0 that is not the no-match
case, and returns a non-empty list of matches on exit status 0. -/
theorem c8_semver_no_match_vs_error (rc : Int) (out : String) :
    (semver (.completed rc out) = .ok [] ↔ rc = 1 ∧ pyStrip out = "") ∧
    (semver (.completed rc out) = .error () ↔ rc ≠ 0 ∧ ¬(rc = 1 ∧ pyStrip out = "")) ∧
    semver RunOutcome.typeError = .error () := by
  refine ⟨?_, ?_, rfl⟩
  · simp only [semver]
    split_ifs with h0 h1
    · constructor
      · intro h
        simp only [Except.ok.injEq] at h
        exact absurd h (pySplitLines_ne_nil _)
      · rintro ⟨h1, -⟩
        omega
    · simp [h1]
    · constructor
      · intro h
        cases h
      · intro hh
        exact absurd hh h1
  · simp only [semver]
    split_ifs with h0 h1
    · constructor
      · intro h
        cases h
      · rintro ⟨hne, -⟩
        exact absurd h0 hne
    · constructor
      · intro h
        cases h
      · rintro ⟨-, hnot⟩
        exact absurd h1 hnot
    · constructor
      · intro _
        exact ⟨h0, h1⟩
      · intro _
        rfl

/-! ### C10: compute_lag mutates the caller's frame -/

/-- C10: when the ordinals of `used` and `latest` both parse and differ,
`compute_lag` rewrites the `version` column of the caller's frame in place
with the pre-release-stripped strings (even if a later step raises); when the
two ordinals are equal the fast path leaves the frame untouched. -/
theorem c10_frame_mutation (versions : List Row) (used latest : String) (u l : Nat)
    (hu : convert_version (stripPre used) = some u)
    (hl : convert_version (stripPre latest) = some l) :
    (u ≠ l → (computeLagSt versions used latest).1 = versions.map stripRow) ∧
    (u = l → (computeLagSt versions used latest).1 = versions) := by
  simp only [computeLagSt, hu, hl]
  constructor
  · intro h
    rw [if_neg h]
  · intro h
    rw [if_pos h]

/-- Witness for C10 at a one-row history with a pre-release suffix: with
`used = 1.0.0`, `latest = 2.0.0` the caller's frame ends up stripped, while
with `latest = 1.0.0-rc` (equal ordinals) it is unchanged. -/
theorem c10_frame_mutation_witness :
    (computeLagSt [⟨"1.0.0-x", "d", "p"⟩] "1.0.0" "2.0.0").1 = [⟨"1.0.0", "d", "p"⟩] ∧
    (computeLagSt [⟨"1.0.0-x", "d", "p"⟩] "1.0.0" "1.0.0-rc").1 = [⟨"1.0.0-x", "d", "p"⟩] := by
  constructor
  · exact ((c10_frame_mutation _ _ _ 1000000 2000000 (by decide) (by decide)).1
      (by decide)).trans (by decide)
  · exact (c10_frame_mutation _ _ _ 1000000 1000000 (by decide) (by decide)).2 rfl

/-! ### C2: deduplication of the history -/

theorem dedupAux_append_singleton (x : Row) :
    ∀ (l seen : List Row), dedupAux seen (l ++ [x]) =
      dedupAux seen l ++ (if x ∈ seen ∨ x ∈ l then [] else [x]) := by
  intro l
  induction l with
  | nil =>
    intro seen
    by_cases hx : x ∈ seen <;> simp [dedupAux, hx]
  | cons r rs ih =>
    intro seen
    by_cases hr : r ∈ seen
    · have hiff : (x ∈ seen ∨ x ∈ rs) ↔ (x ∈ seen ∨ x ∈ r :: rs) := by
        constructor
        · rintro (h1 | h1)
          · exact Or.inl h1
          · exact Or.inr (List.mem_cons_of_mem _ h1)
        · rintro (h1 | h1)
          · exact Or.inl h1
          · rcases List.mem_cons.mp h1 with h2 | h2
            · exact Or.inl (h2 ▸ hr)
            · exact Or.inr h2
      simp only [List.cons_append, dedupAux, List.append_eq, if_pos hr, ih, hiff]
    · have hiff : (x ∈ r :: seen ∨ x ∈ rs) ↔ (x ∈ seen ∨ x ∈ r :: rs) := by
        constructor
        · rintro (h1 | h1)
          · rcases List.mem_cons.mp h1 with h2 | h2
            · exact Or.inr (List.mem_cons.mpr (Or.inl h2))
            · exact Or.inl h2
          · exact Or.inr (List.mem_cons_of_mem _ h1)
        · rintro (h1 | h1)
          · exact Or.inl (List.mem_cons_of_mem _ h1)
          · rcases List.mem_cons.mp h1 with h2 | h2
            · exact Or.inl (List.mem_cons.mpr (Or.inl h2))
            · exact Or.inr h2
      simp only [List.cons_append, dedupAux, List.append_eq, if_neg hr, ih, hiff]

theorem dedupRows_append_of_mem {x : Row} {l : List Row} (h : x ∈ l) :
    dedupRows (l ++ [x]) = dedupRows l := by
  unfold dedupRows
  rw [dedupAux_append_singleton]
  simp [h]

theorem histSorted_append_dup (versions : List Row) (r : Row)
    (h : stripRow r ∈ versions.map stripRow) :
    histSorted (versions ++ [r]) = histSorted versions := by
  unfold histSorted
  simp only [List.map_append, List.map_cons, List.map_nil]
  rw [dedupRows_append_of_mem h]

/-- C2 counterexample: the code deduplicates full rows, not normalized
versions; a pre-release entry sharing the ordinal of `2.0.0` but carrying a
different date survives deduplication and is double-counted (as a `patch`
step), so the three counts do change. -/
theorem c2_dedup_cex :
    compute_lag [⟨"1.0.0", "d1", "p"⟩, ⟨"2.0.0", "d2", "p"⟩, ⟨"2.0.0-pre", "d3", "p"⟩]
        "1.0.0" "2.0.0" = some ⟨1, 0, 1⟩ ∧
    compute_lag [⟨"1.0.0", "d1", "p"⟩, ⟨"2.0.0", "d2", "p"⟩] "1.0.0" "2.0.0" =
      some ⟨1, 0, 0⟩ ∧
    stripPre "2.0.0-pre" = "2.0.0" := by
  refine ⟨by decide, by decide, by decide⟩

/-- C2 (amended): adding a duplicate entry that agrees with an existing row
on all three columns once its version is normalized (pre-release suffix
stripped) — same normalized version, same date, same package — leaves the
result of `compute_lag` unchanged; a duplicate that differs in date or
package survives the full-row deduplication and can increase a bucket. -/
theorem c2_dedup_stable (versions : List Row) (r : Row) (used latest : String)
    (h : stripRow r ∈ versions.map stripRow) :
    compute_lag (versions ++ [r]) used latest = compute_lag versions used latest := by
  unfold compute_lag computeLagSt
  cases hu : convert_version (stripPre used) with
  | none => rfl
  | some u =>
    cases hl : convert_version (stripPre latest) with
    | none => rfl
    | some l =>
      by_cases hul : u = l
      · simp only [if_pos hul]
      · simp only [if_neg hul, histSorted_append_dup versions r h]

/-- Witness for C2: appending a pre-release duplicate of the `2.0.0` row
that also shares its date leaves the lag unchanged. -/
theorem c2_dedup_stable_witness :
    compute_lag ([⟨"1.0.0", "d1", "p"⟩, ⟨"2.0.0", "d2", "p"⟩] ++ [⟨"2.0.0-pre", "d2", "p"⟩])
        "1.0.0" "2.0.0" =
      compute_lag [⟨"1.0.0", "d1", "p"⟩, ⟨"2.0.0", "d2", "p"⟩] "1.0.0" "2.0.0" :=
  c2_dedup_stable _ _ _ _ (by decide)

/-! ### C4: an empty restricted window gives all-zero lag -/

/-- C4 counterexample: with `ordinal(used) = 2000000 > 1000000 =
ordinal(latest)` the claim predicts `{0,0,0}` for every history, but on the
history `{1, 1.5}` the row-wise `release_type` apply (which runs before the
window query) raises an `IndexError`, so `compute_lag` raises instead of
returning zeros. -/
theorem c4_empty_window_cex :
    compute_lag [⟨"1", "d", "p"⟩, ⟨"1.5", "e", "p"⟩] "2.0.0" "1.0.0" = none ∧
    convert_version (stripPre "2.0.0") = some 2000000 ∧
    convert_version (stripPre "1.0.0") = some 1000000 := by
  refine ⟨by decide, by decide, by decide⟩

/-- C4 (amended): whenever `ordinal(used) ≥ ordinal(latest)`, `compute_lag`
returns `{major: 0, minor: 0, patch: 0}` if it returns at all (the restricted
window is empty); with equal ordinals the fast path always returns the zero
lag, while with a strictly larger `used` the code can still raise while
parsing or classifying the history. -/
theorem c4_empty_window_zero (versions : List Row) (used latest : String) (a b : Nat)
    (hu : convert_version (stripPre used) = some a)
    (hl : convert_version (stripPre latest) = some b)
    (hba : b ≤ a) :
    (∀ x, compute_lag versions used latest = some x → x = ⟨0, 0, 0⟩) ∧
    (a = b → compute_lag versions used latest = some ⟨0, 0, 0⟩) := by
  unfold compute_lag computeLagSt
  simp only [hu, hl]
  by_cases hab : a = b
  · rw [if_pos hab]
    exact ⟨fun x hx => (Option.some.inj hx).symm, fun _ => rfl⟩
  · rw [if_neg hab]
    refine ⟨?_, fun hcon => absurd hcon hab⟩
    intro x hx
    rcases hhs : histSorted versions with _ | s
    · simp [hhs] at hx
    · rcases hls : labelSteps "nan" s with _ | steps
      · simp [hhs, hls] at hx
      · simp only [hhs, hls] at hx
        have hw : windowOf a b steps = [] := by
          apply List.filter_eq_nil_iff.mpr
          intro st _ hcon
          simp only [Bool.and_eq_true, decide_eq_true_eq] at hcon
          omega
        rw [hw] at hx
        exact (Option.some.inj hx).symm

/-- Witness for C4 with equal ordinals (`1.2.0` vs the pre-release
`1.2.0-rc1`, both of ordinal 1002000). -/
theorem c4_empty_window_zero_witness :
    compute_lag [⟨"1.0.0", "d", "p"⟩, ⟨"1.2.0", "e", "p"⟩] "1.2.0" "1.2.0-rc1" =
      some ⟨0, 0, 0⟩ :=
  (c4_empty_window_zero _ _ _ 1002000 1002000 (by decide) (by decide)
    (by decide)).2 rfl

/-! ### C5: lag is antitone in the used version -/

theorem countType_window_mono {a b L : Nat} (hab : a ≤ b)
    (steps : List (Nat × Release)) (t : Release) :
    countType (windowOf b L steps) t ≤ countType (windowOf a L steps) t := by
  unfold countType windowOf
  rw [List.countP_filter, List.countP_filter]
  apply List.countP_mono_left
  intro x _ hx
  simp only [Bool.and_eq_true, decide_eq_true_eq] at hx ⊢
  exact ⟨hx.1, by omega, hx.2.2⟩

/-- C5: for a fixed history and a fixed latest version, moving the used
version to one of strictly larger ordinal never increases any of the three
lag counts (whenever both computations return). -/
theorem c5_monotone (versions : List Row) (u1 u2 latest : String) (a b : Nat)
    (l1 l2 : Lag)
    (h1 : convert_version (stripPre u1) = some a)
    (h2 : convert_version (stripPre u2) = some b)
    (hab : a < b)
    (hc1 : compute_lag versions u1 latest = some l1)
    (hc2 : compute_lag versions u2 latest = some l2) :
    l2.major ≤ l1.major ∧ l2.minor ≤ l1.minor ∧ l2.patch ≤ l1.patch := by
  unfold compute_lag computeLagSt at hc1 hc2
  rcases hL : convert_version (stripPre latest) with _ | L
  · rw [h1, hL] at hc1
    cases hc1
  · simp only [h1, hL] at hc1
    simp only [h2, hL] at hc2
    by_cases hbL : b = L
    · rw [if_pos hbL] at hc2
      have he2 : l2 = ⟨0, 0, 0⟩ := (Option.some.inj hc2).symm
      subst he2
      exact ⟨Nat.zero_le _, Nat.zero_le _, Nat.zero_le _⟩
    · rw [if_neg hbL] at hc2
      by_cases haL : a = L
      · rw [if_pos haL] at hc1
        have he1 : l1 = ⟨0, 0, 0⟩ := (Option.some.inj hc1).symm
        rcases hhs : histSorted versions with _ | s
        · simp [hhs] at hc2
        · rcases hls : labelSteps "nan" s with _ | steps
          · simp [hhs, hls] at hc2
          · simp only [hhs, hls] at hc2
            have hw : windowOf b L steps = [] := by
              apply List.filter_eq_nil_iff.mpr
              intro st _ hcon
              simp only [Bool.and_eq_true, decide_eq_true_eq] at hcon
              omega
            rw [hw] at hc2
            have he2 : l2 = ⟨0, 0, 0⟩ := (Option.some.inj hc2).symm
            subst he1
            subst he2
            exact ⟨Nat.le_refl _, Nat.le_refl _, Nat.le_refl _⟩
      · rw [if_neg haL] at hc1
        rcases hhs : histSorted versions with _ | s
        · simp [hhs] at hc1
        · rcases hls : labelSteps "nan" s with _ | steps
          · simp [hhs, hls] at hc1
          · simp only [hhs, hls] at hc1
            simp only [hhs, hls] at hc2
            have he1 : l1 = ⟨countType (windowOf a L steps) Release.major,
                countType (windowOf a L steps) Release.minor,
                countType (windowOf a L steps) Release.patch⟩ :=
              (Option.some.inj hc1).symm
            have he2 : l2 = ⟨countType (windowOf b L steps) Release.major,
                countType (windowOf b L steps) Release.minor,
                countType (windowOf b L steps) Release.patch⟩ :=
              (Option.some.inj hc2).symm
            subst he1
            subst he2
            exact ⟨countType_window_mono (Nat.le_of_lt hab) steps Release.major,
              countType_window_mono (Nat.le_of_lt hab) steps Release.minor,
              countType_window_mono (Nat.le_of_lt hab) steps Release.patch⟩

/-! ### C1: compute_lag counts the classified releases in the window -/

theorem countP_ext {α : Type} (p q : α → Bool) (h : ∀ a, p a = q a) :
    ∀ L : List α, L.countP p = L.countP q := by
  intro L
  induction L with
  | nil => rfl
  | cons x xs ih => rw [List.countP_cons, List.countP_cons, h x, ih]

theorem mem_dedupAux_imp : ∀ (l seen : List Row) (x : Row), x ∈ dedupAux seen l → x ∈ l := by
  intro l
  induction l with
  | nil =>
    intro seen x h
    simp [dedupAux] at h
  | cons r rs ih =>
    intro seen x h
    simp only [dedupAux] at h
    by_cases hr : r ∈ seen
    · rw [if_pos hr] at h
      exact List.mem_cons_of_mem _ (ih _ x h)
    · rw [if_neg hr] at h
      rcases List.mem_cons.mp h with h1 | h1
      · exact List.mem_cons.mpr (Or.inl h1)
      · exact List.mem_cons_of_mem _ (ih _ x h1)

theorem mem_dedupAux_of : ∀ (l seen : List Row) (x : Row),
    x ∈ l → x ∉ seen → x ∈ dedupAux seen l := by
  intro l
  induction l with
  | nil =>
    intro seen x h _
    cases h
  | cons r rs ih =>
    intro seen x h hns
    simp only [dedupAux]
    by_cases hr : r ∈ seen
    · rw [if_pos hr]
      rcases List.mem_cons.mp h with h1 | h1
      · exact absurd (by rw [h1]; exact hr) hns
      · exact ih seen x h1 hns
    · rw [if_neg hr]
      by_cases hxr : x = r
      · exact List.mem_cons.mpr (Or.inl hxr)
      · have h1 : x ∈ rs := by
          rcases List.mem_cons.mp h with h2 | h2
          · exact absurd h2 hxr
          · exact h2
        refine List.mem_cons_of_mem _ (ih (r :: seen) x h1 ?_)
        intro hc
        rcases List.mem_cons.mp hc with h2 | h2
        · exact hxr h2
        · exact hns h2

theorem mem_of_mem_dedupRows {x : Row} {l : List Row} (h : x ∈ dedupRows l) : x ∈ l :=
  mem_dedupAux_imp l [] x h

theorem mem_dedupRows_of_mem {x : Row} {l : List Row} (h : x ∈ l) : x ∈ dedupRows l :=
  mem_dedupAux_of l [] x h (List.not_mem_nil x)

theorem withCountsOf_mem_fwd : ∀ {dd : List Row} {wc : List (Row × Nat)},
    withCountsOf dd = some wc →
    ∀ p ∈ wc, p.1 ∈ dd ∧ convert_version p.1.version = some p.2 := by
  intro dd
  induction dd with
  | nil =>
    intro wc h p hp
    cases Option.some.inj h
    cases hp
  | cons r rs ih =>
    intro wc h p hp
    simp only [withCountsOf] at h
    rcases hc : convert_version r.version with _ | c <;> rw [hc] at h
    · cases h
    · rcases hrec : withCountsOf rs with _ | tl <;> rw [hrec] at h
      · cases h
      · cases Option.some.inj h
        rcases List.mem_cons.mp hp with h1 | h1
        · subst h1
          exact ⟨List.mem_cons_self _ _, hc⟩
        · obtain ⟨ha, hb⟩ := ih hrec p h1
          exact ⟨List.mem_cons_of_mem _ ha, hb⟩

theorem withCountsOf_mem_bwd : ∀ {dd : List Row} {wc : List (Row × Nat)},
    withCountsOf dd = some wc →
    ∀ r ∈ dd, ∀ c, convert_version r.version = some c → (r, c) ∈ wc := by
  intro dd
  induction dd with
  | nil =>
    intro wc h r hr
    cases hr
  | cons r0 rs ih =>
    intro wc h r hr c hcv
    simp only [withCountsOf] at h
    rcases hc : convert_version r0.version with _ | c0 <;> rw [hc] at h
    · cases h
    · rcases hrec : withCountsOf rs with _ | tl <;> rw [hrec] at h
      · cases h
      · cases Option.some.inj h
        rcases List.mem_cons.mp hr with h1 | h1
        · subst h1
          have : c = c0 := Option.some.inj ((hcv.symm).trans hc)
          subst this
          exact List.mem_cons_self _ _
        · exact List.mem_cons_of_mem _ (ih hrec r h1 c hcv)

theorem validMM_shape {s : String} (h : validMM s = true) : isVersionShape s = true := by
  unfold validMM at h
  rw [Bool.and_eq_true] at h
  exact h.1

theorem release_type_nan {v : String} (h : isVersionShape v = true) :
    release_type "nan" v = some Release.major := by
  have hc : (splitOnChar '.' v.toList).headD [] ≠
      (splitOnChar '.' (String.toList "nan")).headD [] := by
    have hne := splitOnChar_ne_nil '.' v.toList
    unfold isVersionShape at h
    cases hsp : splitOnChar '.' v.toList with
    | nil => exact absurd hsp hne
    | cons p ps =>
      rw [hsp] at h
      have hall := List.all_eq_true.mp h p (List.mem_cons_self p ps)
      intro heq
      rw [List.headD_cons] at heq
      rw [heq] at hall
      exact absurd hall (by decide)
  simp only [release_type]
  rw [if_pos hc]

theorem release_type_total_mm {a b : String} (ha : validMM a = true) (hb : validMM b = true) :
    (release_type a b).isSome = true := by
  unfold validMM at ha hb
  simp only [Bool.and_eq_true, decide_eq_true_eq] at ha hb
  exact release_type_total_of a b (Or.inr ⟨ha.2, hb.2⟩)

theorem labelSteps_total : ∀ (s : List (Row × Nat)) (prev : String),
    (∀ x ∈ s, validMM x.1.version = true) → (prev = "nan" ∨ validMM prev = true) →
    ∃ steps, labelSteps prev s = some steps := by
  intro s
  induction s with
  | nil => exact fun _ _ _ => ⟨[], rfl⟩
  | cons x rest ih =>
    intro prev hall hprev
    have hx := hall x (List.mem_cons_self x rest)
    have hrel : (release_type prev x.1.version).isSome = true := by
      rcases hprev with h | h
      · subst h
        rw [release_type_nan (validMM_shape hx)]
        rfl
      · exact release_type_total_mm h hx
    obtain ⟨t0, ht0⟩ := Option.isSome_iff_exists.mp hrel
    obtain ⟨tl, htl⟩ := ih x.1.version (fun y hy => hall y (List.mem_cons_of_mem _ hy))
      (Or.inr hx)
    exact ⟨(x.2, t0) :: tl, by simp only [labelSteps, ht0, htl]⟩

theorem labelSteps_countP : ∀ (s : List (Row × Nat)) (prev : String)
    (steps : List (Nat × Release)), labelSteps prev s = some steps →
    ∀ g : Nat × Release → Bool,
    steps.countP g = (pairsFrom prev s).countP
      (fun pr => match release_type pr.1 pr.2.1.version with
        | some t0 => g (pr.2.2, t0)
        | none => false) := by
  intro s
  induction s with
  | nil =>
    intro prev steps h g
    cases Option.some.inj h
    rfl
  | cons x rest ih =>
    intro prev steps h g
    simp only [labelSteps] at h
    rcases hr : release_type prev x.1.version with _ | t0 <;> rw [hr] at h
    · cases h
    · rcases hrec : labelSteps x.1.version rest with _ | tl <;> rw [hrec] at h
      · cases h
      · cases Option.some.inj h
        simp only [pairsFrom, List.countP_cons, hr]
        rw [ih x.1.version tl hrec g]

theorem pairsFrom_eq_zip : ∀ (rest : List (Row × Nat)) (x : Row × Nat),
    pairsFrom x.1.version rest =
      ((x :: rest).zip rest).map (fun q => (q.1.1.version, q.2)) := by
  intro rest
  induction rest with
  | nil => intro x; rfl
  | cons y ys ih =>
    intro x
    simp only [pairsFrom, List.zip_cons_cons, List.map_cons]
    exact congrArg _ (ih y)

theorem count_eq_lagSpecCount (u l : Nat) (s : List (Row × Nat))
    (steps : List (Nat × Release)) (hsteps : labelSteps "nan" s = some steps)
    (hhead : ∀ x rest, s = x :: rest → x.2 ≤ u) (t : Release) :
    countType (windowOf u l steps) t = lagSpecCount u l s t := by
  unfold countType windowOf lagSpecCount
  rw [List.countP_filter]
  rw [labelSteps_countP s "nan" steps hsteps
    (fun st => decide (st.2 = t) && (decide (u < st.1) && decide (st.1 ≤ l)))]
  have hpt : ∀ pr : String × (Row × Nat),
      (match release_type pr.1 pr.2.1.version with
        | some t0 => (fun st : Nat × Release =>
            decide (st.2 = t) && (decide (u < st.1) && decide (st.1 ≤ l))) (pr.2.2, t0)
        | none => false) =
      (decide (u < pr.2.2) && decide (pr.2.2 ≤ l) &&
        decide (release_type pr.1 pr.2.1.version = some t)) := by
    intro pr
    rcases hrel : release_type pr.1 pr.2.1.version with _ | t0
    · simp [hrel]
    · simp only []
      rw [Bool.and_comm, Bool.and_assoc]
      have hd : decide (t0 = t) = decide (some t0 = some t) :=
        decide_eq_decide.mpr (Option.some_inj).symm
      rw [hd, Bool.and_assoc]
  rw [countP_ext _ _ hpt]
  cases s with
  | nil =>
    cases Option.some.inj hsteps
    rfl
  | cons x rest =>
    have hxu : x.2 ≤ u := hhead x rest rfl
    show ((("nan", x) :: pairsFrom x.1.version rest).countP _) = _
    rw [List.countP_cons]
    have hfalse : (decide (u < x.2) && decide (x.2 ≤ l) &&
        decide (release_type "nan" x.1.version = some t)) = false := by
      simp [Nat.not_lt.mpr hxu]
    rw [pairsFrom_eq_zip rest x]
    rw [List.countP_map]
    simp only [hfalse, Bool.false_eq_true, if_false, Nat.add_zero]
    rfl

/-- C1: for a history whose (stripped) versions are well-formed with at least
major and minor components, and valid `used`/`latest` with
`ordinal(used) < ordinal(latest)` and `used` no older than the oldest
release, `compute_lag` returns exactly the count, for each of the three
release types, of the releases of the ordinal-sorted deduplicated history
whose ordinal lies strictly above `ordinal(used)` and at most
`ordinal(latest)`, each classified by `release_type` against its immediate
predecessor in that sorted history; the result always carries all three
keys (absent types count 0). -/
theorem c1_compute_lag_window (versions : List Row) (used latest : String)
    (u l : Nat) (s : List (Row × Nat))
    (hu : convert_version (stripPre used) = some u)
    (hl : convert_version (stripPre latest) = some l)
    (hul : u < l)
    (hv : ∀ r ∈ versions, validMM (stripPre r.version) = true)
    (hs : histSorted versions = some s)
    (hmin : ∃ r ∈ versions, ∃ c, convert_version (stripPre r.version) = some c ∧ c ≤ u) :
    compute_lag versions used latest =
      some ⟨lagSpecCount u l s Release.major,
            lagSpecCount u l s Release.minor,
            lagSpecCount u l s Release.patch⟩ := by
  obtain ⟨wc, hwc, hsort⟩ : ∃ wc, withCountsOf (dedupRows (versions.map stripRow)) = some wc ∧
      s = List.insertionSort cntLE wc := by
    unfold histSorted at hs
    rcases hwc0 : withCountsOf (dedupRows (versions.map stripRow)) with _ | wc <;>
      rw [hwc0] at hs
    · cases hs
    · exact ⟨wc, rfl, (Option.some.inj hs).symm⟩
  have hvalid : ∀ x ∈ s, validMM x.1.version = true := by
    intro x hx
    have hxwc : x ∈ wc := by
      rw [hsort] at hx
      exact ((List.perm_insertionSort cntLE wc).mem_iff).mp hx
    obtain ⟨hdd, -⟩ := withCountsOf_mem_fwd hwc x hxwc
    have hmap : x.1 ∈ versions.map stripRow := mem_of_mem_dedupRows hdd
    obtain ⟨r0, hr0, heq⟩ := List.mem_map.mp hmap
    have hval := hv r0 hr0
    rw [← heq]
    exact hval
  obtain ⟨steps, hsteps⟩ := labelSteps_total s "nan" hvalid (Or.inl rfl)
  have hhead : ∀ x rest, s = x :: rest → x.2 ≤ u := by
    intro x rest hcons
    obtain ⟨r0, hr0, c, hcv, hcu⟩ := hmin
    have hmm0 : stripRow r0 ∈ versions.map stripRow := List.mem_map_of_mem _ hr0
    have hdd : stripRow r0 ∈ dedupRows (versions.map stripRow) := mem_dedupRows_of_mem hmm0
    have hin : (stripRow r0, c) ∈ wc := withCountsOf_mem_bwd hwc _ hdd c hcv
    have hins : (stripRow r0, c) ∈ s := by
      rw [hsort]
      exact ((List.perm_insertionSort cntLE wc).mem_iff).mpr hin
    have hsorted : List.Sorted cntLE s := by
      rw [hsort]
      exact List.sorted_insertionSort cntLE wc
    rw [hcons] at hins hsorted
    rcases List.mem_cons.mp hins with h1 | h1
    · have hx2 : x.2 = c := by rw [← h1]
      rw [hx2]
      exact hcu
    · exact Nat.le_trans (List.rel_of_sorted_cons hsorted _ h1) hcu
  unfold compute_lag computeLagSt
  simp only [hu, hl, if_neg (Nat.ne_of_lt hul), hs, hsteps]
  rw [count_eq_lagSpecCount u l s steps hsteps hhead Release.major,
    count_eq_lagSpecCount u l s steps hsteps hhead Release.minor,
    count_eq_lagSpecCount u l s steps hsteps hhead Release.patch]

/-- Witness for C1: the claim's end-to-end example — on the history
whose versions are 1.0.0, 1.1.0, 1.2.0, 2.0.0 with used `1.2.0` and latest
`2.0.0` the lag counts are major 1, minor 0, patch 0. -/
theorem c1_compute_lag_window_witness :
    compute_lag [⟨"1.0.0", "a", "p"⟩, ⟨"1.1.0", "b", "p"⟩, ⟨"1.2.0", "c", "p"⟩,
      ⟨"2.0.0", "d", "p"⟩] "1.2.0" "2.0.0" = some ⟨1, 0, 0⟩ :=
  (c1_compute_lag_window _ "1.2.0" "2.0.0" 1002000 2000000
    [(⟨"1.0.0", "a", "p"⟩, 1000000), (⟨"1.1.0", "b", "p"⟩, 1001000),
     (⟨"1.2.0", "c", "p"⟩, 1002000), (⟨"2.0.0", "d", "p"⟩, 2000000)]
    (by decide) (by decide) (by decide) (by decide) (by decide)
    ⟨⟨"1.0.0", "a", "p"⟩, by decide, 1000000, by decide, by decide⟩).trans (by decide)

/-- Witness for C5 on the history with latest
`2.0.0`: moving used from `1.0.0` (lag with counts 1,1,0) to `1.1.0` (lag
with counts 1,0,0) decreases no count below the later value. -/
theorem c5_monotone_witness :
    (⟨1, 0, 0⟩ : Lag).major ≤ (⟨1, 1, 0⟩ : Lag).major ∧
    (⟨1, 0, 0⟩ : Lag).minor ≤ (⟨1, 1, 0⟩ : Lag).minor ∧
    (⟨1, 0, 0⟩ : Lag).patch ≤ (⟨1, 1, 0⟩ : Lag).patch :=
  c5_monotone [⟨"1.0.0", "a", "p"⟩, ⟨"1.1.0", "b", "p"⟩, ⟨"2.0.0", "c", "p"⟩]
    "1.0.0" "1.1.0" "2.0.0" 1000000 1001000 ⟨1, 1, 0⟩ ⟨1, 0, 0⟩
    (by decide) (by decide) (by decide) (by decide) (by decide)

end TechLag
